import Mathlib

/-!
Verification of the parameter-registry core of pizza3 (pizza/private/mstruct.py).

The development shallowly embeds the registry data model (class struct),
the dependency sorter (struct.sortdefinitions), the construction helper
(struct.fromkeysvalues), integer indexing (struct.__getitem__), the escaping
pass (param.escape), the placeholder substitution (struct.format built on
str.format_map with AttrErrorDict), the restricted expression evaluator
(SafeEvaluator) and the evaluation pass (param.eval) as executable Lean
functions, and proves or refutes the frozen claims about them.

Modelling conventions:
  - Python values are a closed variant `Value`: integers, booleans, text,
    lists, None, and the opaque builtin callables and constants that
    SafeEvaluator installs in its context.  The NumPy array type and the
    pstr path type are outside the modelled universe (the spec treats
    paths as external; no claim requires arrays).  On the modelled
    universe pstr.eval is the identity, as in the source.
  - A registry is an ordered association list of (name, value) pairs,
    mirroring insertion-ordered __dict__ entries with the bookkeeping
    names excluded.  The registry invariant of unique names is taken as a
    hypothesis where a proof needs it.
  - Text is processed as List Char.  Recursive scanners consume at least
    one character per step; where the recursion is not structural a fuel
    argument bounded below by the input length makes it structural, and
    the call sites supply a fuel that can never run out.
  - param.eval is modelled at its default configuration
    (_protection = False, _evaluation = True, _returnerror = True,
    no pstr values), which is the configuration all claims speak about.
-/

/-- Closed variant of the Python values a registry can hold in the model.
`VBuiltin` stands for the opaque callables/constants (math, random, np)
that SafeEvaluator injects into its evaluation context. -/
inductive Value where
  | VInt  (n : Int)
  | VBool (b : Bool)
  | VStr  (s : String)
  | VList (l : List Value)
  | VNone
  | VBuiltin (name : String)

open Value

/-- Test for the empty Python list, the special case of struct.setattr. -/
def isEmptyListV : Value → Bool
  | VList [] => true
  | _ => false

/-- Ordered registry: the insertion-ordered (name, raw value) pairs of a
struct instance (its __dict__ minus the excluded bookkeeping names). -/
abbrev Registry := List (String × Value)

/-- Ordered field names of a registry (struct.keys). -/
def keysOf (r : Registry) : List String := r.map Prod.fst

/-- First-match lookup (struct.getattr on a dict: the unique binding). -/
def lookupR (r : Registry) (k : String) : Option Value :=
  match r with
  | [] => none
  | (k0, v0) :: rest => if k0 = k then some v0 else lookupR rest k

/-- Remove the binding of name k (delattr). -/
def eraseR (r : Registry) (k : String) : Registry :=
  match r with
  | [] => []
  | (k0, v0) :: rest => if k0 = k then rest else (k0, v0) :: eraseR rest k

/-- Replace the value bound to k, keeping its position (dict update on an
existing key). -/
def replaceR (r : Registry) (k : String) (v : Value) : Registry :=
  match r with
  | [] => []
  | (k0, v0) :: rest =>
      if k0 = k then (k0, v) :: rest else (k0, v0) :: replaceR rest k v

/-- struct.setattr: assigning an empty list to an existing field deletes
it; otherwise the field is updated in place or appended. -/
def setattrS (r : Registry) (k : String) (v : Value) : Registry :=
  if isEmptyListV v ∧ k ∈ keysOf r then eraseR r k
  else if k ∈ keysOf r then replaceR r k v
  else r ++ [(k, v)]

/-- dict.update of one field (struct.__add__ per field): existing names
are overwritten in place, new names are appended.  Unlike setattrS an
empty-list value does not delete. -/
def updateField (r : Registry) (k : String) (v : Value) : Registry :=
  if k ∈ keysOf r then replaceR r k v else r ++ [(k, v)]

/-- struct.__add__: duplicate the left operand and dict.update it with the
fields of the right operand in order. -/
def addStruct (r s : Registry) : Registry :=
  s.foldl (fun acc f => updateField acc f.1 f.2) r

/-- Auto-generated name of the surplus value at position i
(f-string keyI in the source). -/
def autoKey (i : Nat) : String := "key" ++ toString i

/-- First loop of struct.fromkeysvalues: names in order, each assigned
the value at min(position, value count - 1), so surplus names repeat the
last value. -/
def fkvGo1 (vs : List Value) (nv : Nat) : Nat → List String → Registry → Registry
  | _, [], s => s
  | ik, k :: krest, s =>
      fkvGo1 vs nv (ik + 1) krest (setattrS s k (vs.getD (min ik (nv - 1)) VNone))

/-- Second loop of struct.fromkeysvalues: surplus values at positions
name count .. value count - 1 under auto-generated names. -/
def fkvGo2 (vs : List Value) : Nat → Nat → Registry → Registry
  | _, 0, s => s
  | ik, rem + 1, s => fkvGo2 vs (ik + 1) rem (setattrS s (autoKey ik) (vs.getD ik VNone))

/-- struct.fromkeysvalues: build a registry from parallel key and value
sequences (empty inputs yield the empty registry). -/
def fromkeysvalues (ks : List String) (vs : List Value) : Registry :=
  if 0 < ks.length ∧ 0 < vs.length then
    fkvGo2 vs ks.length (vs.length - ks.length) (fkvGo1 vs vs.length 0 ks [])
  else []

/-- Python list indexing with negative-index support, as used by
self.keys()[idx] inside struct.__getitem__. -/
def pyListGet {α : Type} (l : List α) (i : Int) : Option α :=
  if h : 0 ≤ i ∧ i < l.length then
    some (l.get ⟨i.toNat, by omega⟩)
  else if h2 : -(l.length : Int) ≤ i ∧ i < 0 then
    some (l.get ⟨(l.length + i).toNat, by omega⟩)
  else none

/-- struct.__getitem__ at an integer index: the source first tests
idx < len(self) (raising IndexError otherwise) and then indexes the
Python list self.keys() — which accepts negative indices and raises
IndexError when the index is below -len.  `none` models IndexError. -/
def getitemInt (r : Registry) (i : Int) : Option Value :=
  if i < (r.length : Int) then
    match pyListGet (keysOf r) i with
    | some k => lookupR r k
    | none => none
  else none

/- ---------------------------------------------------------------------
Text utilities (List Char level).  Python str.replace of the fixed
patterns used by the source is specialised to structural scanners.
--------------------------------------------------------------------- -/

/-- Python whitespace for strip/lstrip. -/
def isSpaceC (c : Char) : Bool :=
  c = ' ' ∨ c = '\t' ∨ c = '\n' ∨ c = '\r'

/-- str.lstrip() -/
def lstripC (l : List Char) : List Char := l.dropWhile isSpaceC

/-- str.strip() -/
def stripC (l : List Char) : List Char :=
  ((l.dropWhile isSpaceC).reverse.dropWhile isSpaceC).reverse

/-- str.replace of the two-character pattern dollar-brace by a brace. -/
def replaceDollarBrace : List Char → List Char
  | '$' :: '{' :: rest => '{' :: replaceDollarBrace rest
  | c :: rest => c :: replaceDollarBrace rest
  | [] => []

/-- str.replace of a brace by dollar-brace (the revert path of
struct.format). -/
def braceToDollarBrace : List Char → List Char
  | '{' :: rest => '$' :: '{' :: braceToDollarBrace rest
  | c :: rest => c :: braceToDollarBrace rest
  | [] => []

/-- str.replace of the caret by a double star (legacy exponent syntax). -/
def replaceCaret : List Char → List Char
  | '^' :: rest => '*' :: '*' :: replaceCaret rest
  | c :: rest => c :: replaceCaret rest
  | [] => []

/-- str.replace of a newline by a comma. -/
def replaceNewlineComma : List Char → List Char
  | '\n' :: rest => ',' :: replaceNewlineComma rest
  | c :: rest => c :: replaceNewlineComma rest
  | [] => []

/-- Split at the first closing brace: returns the characters before it and
the characters after it (the brace is consumed), or none when absent.
This is str.find of a closing brace as the source uses it. -/
def takeUntilRBrace : List Char → Option (List Char × List Char)
  | [] => none
  | '}' :: rest => some ([], rest)
  | c :: rest =>
      match takeUntilRBrace rest with
      | some (pre, post) => some (c :: pre, post)
      | none => none

/-- param.escape, inner loop.  A backslash-dollar-brace span with a later
closing brace becomes dollar-double-brace ... double-brace (kept literal
by format); everything else has its dollar-brace tokens turned into bare
braces.  The Bool records whether a complete escaped span was rewritten
(start > 0 in the source).  The fuel is the input length; every step
consumes at least one character, so it never runs out. -/
def escapeGo : Nat → List Char → (List Char × Bool)
  | 0, l => (replaceDollarBrace l, false)
  | _ + 1, [] => ([], false)
  | f + 1, '\\' :: '$' :: '{' :: rest =>
      match takeUntilRBrace rest with
      | some (inner, rest2) =>
          let (tail, _) := escapeGo f rest2
          ('$' :: '{' :: '{' :: inner ++ '}' :: '}' :: tail, true)
      | none => (replaceDollarBrace ('\\' :: '$' :: '{' :: rest), false)
  | f + 1, '$' :: '{' :: rest =>
      let (tail, b) := escapeGo f rest
      ('{' :: tail, b)
  | f + 1, c :: rest =>
      let (tail, b) := escapeGo f rest
      (c :: tail, b)

/-- param.escape on strings. -/
def escapeS (s : String) : String × Bool :=
  let (l, b) := escapeGo s.data.length s.data
  (String.mk l, b)

/-- struct.isstrexpression: the regex dollar-brace, lazy dot star, brace
matches somewhere in the string. -/
def hasExprToken : List Char → Bool
  | '$' :: '{' :: rest => rest.contains '}'
  | _ :: rest => hasExprToken rest
  | [] => false

/-- struct.isstrexpression on strings. -/
def isstrexpression (s : String) : Bool := hasExprToken s.data

/-- Classification used by sortdefinitions: a field is dynamic iff its
value is a string containing a placeholder token. -/
def isexprV : Value → Bool
  | VStr s => isstrexpression s
  | _ => false

/-- re.findall of the placeholder regex: the contents of every complete
(non-overlapping, lazily matched) dollar-brace ... brace span, in order.
Fuel is the input length, consuming at least one character per step. -/
def scanGo : Nat → List Char → List String
  | 0, _ => []
  | _ + 1, [] => []
  | f + 1, '$' :: '{' :: rest =>
      match takeUntilRBrace rest with
      | some (inner, rest2) => String.mk inner :: scanGo f rest2
      | none => []
  | f + 1, _ :: rest => scanGo f rest

/-- Order-preserving deduplication (the uniq loop of struct.scan). -/
def dedupe : List String → List String → List String
  | _, [] => []
  | seen, x :: rest =>
      if x ∈ seen then dedupe seen rest else x :: dedupe (seen ++ [x]) rest

/-- struct.scan: the distinct placeholder names of a string, in order of
first appearance. -/
def scanS (s : String) : List String :=
  dedupe [] (scanGo s.data.length s.data)

/-- struct.isdefined with no reference registry, folded into a single
check (all(teststruct.isdefined()) in the source): every dynamic field
only references names appearing strictly before it. -/
def alldefinedGo : List String → Registry → Bool
  | _, [] => true
  | seen, (k, v) :: rest =>
      (if isexprV v then (scanS ((match v with | VStr s => s | _ => ""))).all
          (fun n => seen.contains n) else true)
      && alldefinedGo (seen ++ [k]) rest

/-- all(list(r.isdefined())) of the source. -/
def alldefined (r : Registry) : Bool := alldefinedGo [] r

/- ---------------------------------------------------------------------
Dependency sorter (struct.sortdefinitions)
--------------------------------------------------------------------- -/

/-- Outcome of one sortdefinitions run: `raised n` is the strict-mode
KeyError reporting n remaining uninterpretable expressions. -/
inductive SortRes where
  | raised (nmissing : Nat)
  | done (current : Registry) (anychange : Bool)

/-- Outcome of sortdefinitions as a whole. -/
inductive SortResult where
  | raised (nmissing : Nat)
  | sorted (r : Registry)

/-- Scan of the pending dynamic fields in order: split the pending list
around the first field whose addition keeps every field defined
(the inner while loop of sortdefinitions). -/
def findFirstOKSplit (current : Registry) :
    Registry → Option (Registry × (String × Value) × Registry)
  | [] => none
  | p :: rest =>
      if alldefined (addStruct current [p]) then some ([], p, rest)
      else
        match findFirstOKSplit current rest with
        | some (pre, q, post) => some (p :: pre, q, post)
        | none => none

/-- Outer loop of sortdefinitions.  When some pending field tests defined,
the first such field is accepted; otherwise strict mode raises with the
remaining count while lenient mode force-accepts the field tested last
(the final value of the loop variables teststruct and ifound).  The fuel
equals the pending length at the call site and decreases in step with
it, so the zero-fuel branch is never taken. -/
def sortLoop : Nat → Registry → Registry → Bool → Bool → SortRes
  | _, current, [], _, anychange => .done current anychange
  | 0, current, _ :: _, _, anychange => .done current anychange
  | f + 1, current, p :: ps, raiseerror, anychange =>
      match findFirstOKSplit current (p :: ps) with
      | some (pre, q, post) =>
          sortLoop f (addStruct current [q]) (pre ++ post) raiseerror true
      | none =>
          if raiseerror then .raised (p :: ps).length
          else
            sortLoop f (addStruct current [(p :: ps).getLast (List.cons_ne_nil p ps)])
              (p :: ps).dropLast raiseerror anychange

/-- clear() followed by re-assignment of every (key, value) of the sorted
accumulator, in order. -/
def rebuildR (cur : Registry) : Registry :=
  cur.foldl (fun acc f => setattrS acc f.1 f.2) []

/-- struct.sortdefinitions.  Static fields (in original order) seed the
accumulator; dynamic fields are repeatedly scanned as in the source.  The
registry is rewritten from the accumulator only when at least one field
was accepted through the defined-test (anychange). -/
def sortdefinitions (r : Registry) (raiseerror : Bool) : SortResult :=
  let stat := fromkeysvalues
    ((r.filter (fun f => !isexprV f.2)).map Prod.fst)
    ((r.filter (fun f => !isexprV f.2)).map Prod.snd)
  let dyn := fromkeysvalues
    ((r.filter (fun f => isexprV f.2)).map Prod.fst)
    ((r.filter (fun f => isexprV f.2)).map Prod.snd)
  match sortLoop dyn.length stat dyn raiseerror false with
  | .raised n => .raised n
  | .done current anychange => .sorted (if anychange then rebuildR current else r)

/- ---------------------------------------------------------------------
Python str() / repr() on the modelled values
--------------------------------------------------------------------- -/

/-- The single-quote character, written by code point to keep string
literals plain. -/
def quoteChar : Char := Char.ofNat 39

mutual
/-- Python repr() on the modelled values (used for list elements). -/
def pyReprV : Value → String
  | VInt n => toString n
  | VBool b => if b then "True" else "False"
  | VStr s => String.mk (quoteChar :: s.data ++ [quoteChar])
  | VList l => "[" ++ pyReprL l ++ "]"
  | VNone => "None"
  | VBuiltin n => n
/-- repr of the elements of a Python list, comma separated. -/
def pyReprL : List Value → String
  | [] => ""
  | [x] => pyReprV x
  | x :: y :: rest => pyReprV x ++ ", " ++ pyReprL (y :: rest)
end

/-- Python str() on the modelled values (top-level strings print raw). -/
def pyStrV : Value → String
  | VStr s => s
  | v => pyReprV v

/- ---------------------------------------------------------------------
str.format_map with AttrErrorDict (struct.format)
--------------------------------------------------------------------- -/

/-- Outcome of str.format_map: errKey is the KeyError that AttrErrorDict
turns into AttributeError; errIndex is the IndexError of positional
fields; errValue is the ValueError of malformed brace syntax. -/
inductive FmtRes where
  | ok (out : List Char)
  | errKey (k : String)
  | errIndex
  | errValue

/-- Prepend characters to a format outcome. -/
def fmtCons (pre : List Char) : FmtRes → FmtRes
  | .ok out => .ok (pre ++ out)
  | e => e

/-- str.format_map over the field dictionary of a registry.  Doubled
braces are literals; a replacement field is looked up in the registry
(missing names turn into errKey, empty or numeric names into errIndex);
single braces are ValueError.  The fuel is the input length; each step
consumes at least one character. -/
def formatGo : Nat → Registry → List Char → FmtRes
  | 0, _, _ => .errValue
  | _ + 1, _, [] => .ok []
  | f + 1, ctx, '{' :: '{' :: rest => fmtCons ['{'] (formatGo f ctx rest)
  | f + 1, ctx, '}' :: '}' :: rest => fmtCons ['}'] (formatGo f ctx rest)
  | _ + 1, _, '}' :: _ => .errValue
  | f + 1, ctx, '{' :: rest =>
      match takeUntilRBrace rest with
      | none => .errValue
      | some (field, rest2) =>
          if field = [] ∨ field.all Char.isDigit then .errIndex
          else
            match lookupR ctx (String.mk field) with
            | none => .errKey (String.mk field)
            | some v => fmtCons (pyStrV v).data (formatGo f ctx rest2)
  | f + 1, ctx, c :: rest => fmtCons [c] (formatGo f ctx rest)

/-- struct.format with raiseerror=False: the format_map outcome is
returned to the caller as is (exceptions propagate). -/
def formatNoRaise (ctx : Registry) (s : String) (escape : Bool) : FmtRes :=
  let t := if escape then s.data else replaceDollarBrace s.data
  formatGo (t.length + 1) ctx t

/-- Outcome of struct.format with raiseerror=True. -/
inductive FormatOut where
  | ok (s : String)
  | reverted (s : String)
  | hardRuntime

/-- struct.format with raiseerror=True: an AttributeError (missing name)
prints a warning and returns the input with braces restored to
placeholder form; any other failure is re-raised as RuntimeError. -/
def formatRaise (ctx : Registry) (s : String) (escape : Bool) : FormatOut :=
  match formatNoRaise ctx s escape with
  | .ok out => .ok (String.mk out)
  | .errKey _ => .reverted (String.mk (braceToDollarBrace s.data))
  | .errIndex => .hardRuntime
  | .errValue => .hardRuntime

/- ---------------------------------------------------------------------
SafeEvaluator: restricted expression grammar over the modelled values
--------------------------------------------------------------------- -/

/-- Tokens of the expression fragment exercised by the registry claims:
integer literals, names, additive and multiplicative operators,
parentheses and attribute dots. -/
inductive Tok where
  | tInt (n : Nat)
  | tName (s : String)
  | tPlus
  | tMinus
  | tStar
  | tLParen
  | tRParen
  | tDot

/-- Identifier head character. -/
def isIdentStart (c : Char) : Bool := c.isAlpha ∨ c = '_'

/-- Identifier tail character. -/
def isIdentChar (c : Char) : Bool := c.isAlphanum ∨ c = '_'

/-- Decimal digits to a natural number. -/
def digitsToNat (l : List Char) : Nat :=
  l.foldl (fun a c => a * 10 + (c.toNat - 48)) 0

/-- Tokenizer.  Characters outside the fragment make the whole expression
a SyntaxError (none).  Fuel is length + 1. -/
def lexGo : Nat → List Char → Option (List Tok)
  | 0, _ => none
  | _ + 1, [] => some []
  | f + 1, c :: rest =>
      if isSpaceC c then lexGo f rest
      else if c.isDigit then
        let ds := (c :: rest).takeWhile Char.isDigit
        let rest2 := (c :: rest).dropWhile Char.isDigit
        match lexGo f rest2 with
        | some ts => some (.tInt (digitsToNat ds) :: ts)
        | none => none
      else if isIdentStart c then
        let ds := (c :: rest).takeWhile isIdentChar
        let rest2 := (c :: rest).dropWhile isIdentChar
        match lexGo f rest2 with
        | some ts => some (.tName (String.mk ds) :: ts)
        | none => none
      else
        let tok : Option Tok :=
          if c = '+' then some .tPlus
          else if c = '-' then some .tMinus
          else if c = '*' then some .tStar
          else if c = '(' then some .tLParen
          else if c = ')' then some .tRParen
          else if c = '.' then some .tDot
          else none
        match tok with
        | some t =>
            match lexGo f rest with
            | some ts => some (t :: ts)
            | none => none
        | none => none

/-- Binary operators of the modelled fragment (ast.Add, ast.Sub,
ast.Mult from the allow-listed operator table). -/
inductive BOp where
  | addB
  | subB
  | mulB

/-- Restricted syntax trees: ast.Constant, ast.Name, ast.BinOp,
ast.UnaryOp (USub) and ast.Attribute. -/
inductive Expr where
  | konst (v : Value)
  | nameE (s : String)
  | binop (op : BOp) (a b : Expr)
  | uneg (a : Expr)
  | attrE (a : Expr) (attr : String)

mutual
/-- Additive level of the recursive-descent parser. -/
def parseExpr : Nat → List Tok → Option (Expr × List Tok)
  | 0, _ => none
  | f + 1, ts =>
      match parseTerm f ts with
      | some (e, rest) => parseExprRest f e rest
      | none => none
/-- Left-associative chain of + and -. -/
def parseExprRest : Nat → Expr → List Tok → Option (Expr × List Tok)
  | 0, _, _ => none
  | f + 1, e, .tPlus :: rest =>
      match parseTerm f rest with
      | some (e2, r2) => parseExprRest f (.binop .addB e e2) r2
      | none => none
  | f + 1, e, .tMinus :: rest =>
      match parseTerm f rest with
      | some (e2, r2) => parseExprRest f (.binop .subB e e2) r2
      | none => none
  | _ + 1, e, ts => some (e, ts)
/-- Multiplicative level. -/
def parseTerm : Nat → List Tok → Option (Expr × List Tok)
  | 0, _ => none
  | f + 1, ts =>
      match parseFactor f ts with
      | some (e, rest) => parseTermRest f e rest
      | none => none
/-- Left-associative chain of *. -/
def parseTermRest : Nat → Expr → List Tok → Option (Expr × List Tok)
  | 0, _, _ => none
  | f + 1, e, .tStar :: rest =>
      match parseFactor f rest with
      | some (e2, r2) => parseTermRest f (.binop .mulB e e2) r2
      | none => none
  | _ + 1, e, ts => some (e, ts)
/-- Unary minus. -/
def parseFactor : Nat → List Tok → Option (Expr × List Tok)
  | 0, _ => none
  | f + 1, .tMinus :: rest =>
      match parseFactor f rest with
      | some (e, r2) => some (.uneg e, r2)
      | none => none
  | f + 1, ts => parsePostfix f ts
/-- Attribute postfix chain. -/
def parsePostfix : Nat → List Tok → Option (Expr × List Tok)
  | 0, _ => none
  | f + 1, ts =>
      match parseAtom f ts with
      | some (e, rest) => parseAttrRest f e rest
      | none => none
/-- Dotted attribute names after an atom. -/
def parseAttrRest : Nat → Expr → List Tok → Option (Expr × List Tok)
  | 0, _, _ => none
  | f + 1, e, .tDot :: .tName a :: rest => parseAttrRest f (.attrE e a) rest
  | _ + 1, e, ts => some (e, ts)
/-- Literals, names and parenthesised expressions. -/
def parseAtom : Nat → List Tok → Option (Expr × List Tok)
  | 0, _ => none
  | _ + 1, .tInt n :: rest => some (.konst (VInt (n : Int)), rest)
  | _ + 1, .tName s :: rest => some (.nameE s, rest)
  | f + 1, .tLParen :: rest =>
      match parseExpr f rest with
      | some (e, .tRParen :: r2) => some (e, r2)
      | _ => none
  | _ + 1, _ => none
end

/-- ast.parse in eval mode on the modelled fragment; none is a
SyntaxError. -/
def parseExprString (s : String) : Option Expr :=
  match lexGo (s.data.length + 1) s.data with
  | none => none
  | some ts =>
      match parseExpr (5 * (ts.length + 1)) ts with
      | some (e, []) => some e
      | _ => none

/-- Evaluator failures (each is a caught Python exception class). -/
inductive EvalErr where
  | nameUndef (n : String)
  | typeErr
  | attrNoAttr
  | syntaxErr
  | unsupported

/-- Names that SafeEvaluator.__init__ installs in the evaluation context
on top of the caller context; they overwrite same-named fields. -/
def builtinNames : List String :=
  ["sin", "cos", "tan", "asin", "acos", "atan", "atan2", "radians", "degrees",
   "exp", "log", "log10", "pow", "sqrt", "ceil", "floor", "fmod", "modf",
   "fabs", "hypot", "pi", "e", "gauss", "uniform", "randint", "choice", "np"]

/-- visit_Name context lookup: builtins first (they were written last into
the context dict), then the caller registry. -/
def lookupCtx (tmp : Registry) (n : String) : Option Value :=
  if builtinNames.contains n then some (VBuiltin n) else lookupR tmp n

/-- Python hasattr restricted to the modelled universe: the numeric tower
attributes of int and bool.  Strings, lists, None and the opaque builtins
expose none of the attribute names the claims touch. -/
def pyHasattr : Value → String → Bool
  | VInt _, a => ["real", "imag", "numerator", "denominator"].contains a
  | VBool _, a => ["real", "imag", "numerator", "denominator"].contains a
  | _, _ => false

/-- Python getattr on the attributes pyHasattr accepts. -/
def pyGetattr : Value → String → Value
  | VInt n, "real" => VInt n
  | VInt n, "numerator" => VInt n
  | VInt _, "imag" => VInt 0
  | VInt _, "denominator" => VInt 1
  | VBool b, "real" => VBool b
  | VBool b, "numerator" => VInt (if b then 1 else 0)
  | VBool _, "imag" => VInt 0
  | VBool _, "denominator" => VInt 1
  | _, _ => VNone

/-- Numeric coercion of the Python int tower (bool is an int). -/
def asNum : Value → Option Int
  | VInt n => some n
  | VBool b => some (if b then 1 else 0)
  | _ => none

/-- visit_BinOp through the allow-listed operator table. -/
def applyBOp (op : BOp) (a b : Value) : Except EvalErr Value :=
  match op with
  | .addB =>
      match asNum a, asNum b with
      | some x, some y => .ok (VInt (x + y))
      | _, _ =>
          match a, b with
          | VStr x, VStr y => .ok (VStr (x ++ y))
          | VList x, VList y => .ok (VList (x ++ y))
          | _, _ => .error .typeErr
  | .subB =>
      match asNum a, asNum b with
      | some x, some y => .ok (VInt (x - y))
      | _, _ => .error .typeErr
  | .mulB =>
      match asNum a, asNum b with
      | some x, some y => .ok (VInt (x * y))
      | _, _ => .error .typeErr

/-- SafeEvaluator.visit.  visit_Attribute follows the source: any
attribute the object possesses is returned through getattr (the transpose
and matmul special cases concern NumPy arrays, which are outside the
modelled universe); an absent attribute raises. -/
def visitE (tmp : Registry) : Expr → Except EvalErr Value
  | .konst v => .ok v
  | .nameE n =>
      match lookupCtx tmp n with
      | some v => .ok v
      | none => .error (.nameUndef n)
  | .binop op a b =>
      match visitE tmp a with
      | .error e => .error e
      | .ok x =>
          match visitE tmp b with
          | .error e => .error e
          | .ok y => applyBOp op x y
  | .uneg a =>
      match visitE tmp a with
      | .error e => .error e
      | .ok x =>
          match asNum x with
          | some n => .ok (VInt (-n))
          | none => .error .typeErr
  | .attrE a attr =>
      match visitE tmp a with
      | .error e => .error e
      | .ok v =>
          if pyHasattr v attr then .ok (pyGetattr v attr)
          else .error .attrNoAttr

/-- SafeEvaluator.evaluate: parse then visit. -/
def evaluateS (tmp : Registry) (s : String) : Except EvalErr Value :=
  match parseExprString s with
  | none => .error .syntaxErr
  | some e => visitE tmp e

/-- Rendering of evaluator failures (text only feeds error sentinels). -/
def errMsg : EvalErr → String
  | .nameUndef n => "Variable or function " ++ n ++ " is not defined"
  | .typeErr => "unsupported operand type"
  | .attrNoAttr => "object has no attribute"
  | .syntaxErr => "invalid syntax"
  | .unsupported => "Unsupported expression"

/- ---------------------------------------------------------------------
ast.literal_eval (the bang-sigil branch of param.eval)
--------------------------------------------------------------------- -/

/-- Characters up to a closing quote q. -/
def takeUntilQuote (q : Char) : List Char → Option (List Char × List Char)
  | [] => none
  | c :: rest =>
      if c = q then some ([], rest)
      else
        match takeUntilQuote q rest with
        | some (pre, post) => some (c :: pre, post)
        | none => none

mutual
/-- ast.literal_eval on the modelled fragment: integers, quoted strings,
lists, True, False, None.  none covers both SyntaxError and ValueError,
which the call site catches together. -/
def litGo : Nat → List Char → Option (Value × List Char)
  | 0, _ => none
  | _ + 1, [] => none
  | f + 1, c :: rest =>
      if isSpaceC c then litGo f rest
      else if c.isDigit then
        some (VInt (digitsToNat ((c :: rest).takeWhile Char.isDigit) : Int),
              (c :: rest).dropWhile Char.isDigit)
      else if c = '-' then
        match rest with
        | d :: _ =>
            if d.isDigit then
              some (VInt (-(digitsToNat (rest.takeWhile Char.isDigit) : Int)),
                    rest.dropWhile Char.isDigit)
            else none
        | [] => none
      else if c = '"' ∨ c = quoteChar then
        match takeUntilQuote c rest with
        | some (inner, rest2) => some (VStr (String.mk inner), rest2)
        | none => none
      else if c = '[' then
        match litList f (rest.dropWhile isSpaceC) with
        | some (items, rest2) => some (VList items, rest2)
        | none => none
      else
        match c :: rest with
        | 'T' :: 'r' :: 'u' :: 'e' :: r2 => some (VBool true, r2)
        | 'F' :: 'a' :: 'l' :: 's' :: 'e' :: r2 => some (VBool false, r2)
        | 'N' :: 'o' :: 'n' :: 'e' :: r2 => some (VNone, r2)
        | _ => none
/-- Elements of a list literal, separated by commas, closed by a
bracket. -/
def litList : Nat → List Char → Option (List Value × List Char)
  | 0, _ => none
  | _ + 1, [] => none
  | f + 1, c :: rest =>
      if c = ']' then some ([], rest)
      else
        match litGo f (c :: rest) with
        | some (v, rest2) =>
            match rest2.dropWhile isSpaceC with
            | ',' :: rest3 =>
                match litList f (rest3.dropWhile isSpaceC) with
                | some (items, rest4) => some (v :: items, rest4)
                | none => none
            | ']' :: rest3 => some ([v], rest3)
            | _ => none
        | none => none
end

/-- ast.literal_eval of a whole string. -/
def literalEval (s : String) : Option Value :=
  match litGo (s.data.length + 1) s.data with
  | some (v, rest) => if rest.dropWhile isSpaceC = [] then some v else none
  | none => none

/- ---------------------------------------------------------------------
param.safe_fstring
--------------------------------------------------------------------- -/

/-- process_template of safe_fstring: strip, drop the text from the first
hash sign not in first position, rewrite carets, strip again. -/
def processTemplate (l : List Char) : List Char :=
  let t := stripC l
  let t :=
    match t with
    | [] => []
    | c0 :: rest =>
        if rest.contains '#' then c0 :: rest.takeWhile (fun c => c ≠ '#')
        else c0 :: rest
  stripC (replaceCaret t)

/-- Substitution loop of safe_fstring: every span matching the pattern
dollar-brace, one or more brace-free characters, brace is replaced by the
serialized value of the inner expression, or by an error marker text when
evaluation fails.  Fuel is the input length. -/
def safeFstringGo : Nat → Registry → List Char → List Char
  | 0, _, l => l
  | _ + 1, _, [] => []
  | f + 1, ctx, '$' :: '{' :: rest =>
      match takeUntilRBrace rest with
      | some (inner, rest2) =>
          if inner ≠ [] ∧ ¬ inner.contains '{' then
            (match evaluateS ctx (String.mk inner) with
             | .ok v => (pyStrV v).data
             | .error e => ("<Error: " ++ errMsg e ++ ">").data)
            ++ safeFstringGo f ctx rest2
          else '$' :: safeFstringGo f ctx ('{' :: rest)
      | none => '$' :: safeFstringGo f ctx ('{' :: rest)
  | f + 1, ctx, c :: rest => c :: safeFstringGo f ctx rest

/-- param.safe_fstring on strings. -/
def safeFstring (ctx : Registry) (template : String) : String :=
  let t := processTemplate template.data
  String.mk (safeFstringGo t.length ctx t)

/- ---------------------------------------------------------------------
param.eval (default configuration)
--------------------------------------------------------------------- -/

/-- First character test on the character list of a processed value. -/
def startsWithC (l : List Char) (c : Char) : Bool :=
  match l with
  | x :: _ => x = c
  | [] => false

/-- Comment stripping of param.eval: text after a hash sign is removed
(and the remainder stripped) unless the hash sign is the first
character. -/
def commentStripL (l : List Char) : List Char :=
  match l with
  | [] => []
  | c0 :: rest =>
      if c0 = '#' then l
      else if rest.contains '#' then stripC (c0 :: rest.takeWhile (fun c => c ≠ '#'))
      else l

/-- Item post-processing of the bang-sigil branch: string items that do
not start (after strip) with a dollar sign are formatted against the
result registry; any failure is caught into an error text. -/
def litItemFormat (tmp : Registry) (item : Value) : Value :=
  match item with
  | VStr s =>
      if startsWithC (stripC s.data) '$' then VStr s
      else
        match formatNoRaise tmp s false with
        | .ok out => VStr (String.mk out)
        | _ => VStr ("Error in <" ++ s ++ ">: formatting failed")
  | v => v

/-- What processing one field does to the result registry. -/
inductive FieldOutcome where
  | hard
  | skipF
  | store (v : Value)

/-- Per-field body of param.eval at the default configuration
(_protection off, _evaluation on, _returnerror on, no pstr values).
Mirrors the branch structure of the source: escape pass, caret rewrite,
comment strip, then sigil dispatch; the default branch formats with
raiseerror=False and feeds the outcome to SafeEvaluator, falling back to
safe_fstring on AttributeError/IndexError; the dollar and percent sigil
branches and the escaped-placeholder branch format with raiseerror=True,
whose non-AttributeError failures become an uncaught RuntimeError
(hard). -/
def evalField (tmp : Registry) (v : Value) : FieldOutcome :=
  match v with
  | VStr s =>
      let priorescape := s
      let es := escapeS s
      let w := commentStripL (replaceCaret es.1.data)
      let vs3 := String.mk w
      if startsWithC w '!' then
        match literalEval (String.mk w.tail) with
        | none => .store (VStr "Error: ValueError - malformed node or string")
        | some (VList items) => .store (VList (items.map (litItemFormat tmp)))
        | some v2 => .store v2
      else if startsWithC w '$' ∧ ¬ es.2 then
        match formatRaise tmp (String.mk (lstripC w.tail)) false with
        | .ok t => .store (VStr t)
        | .reverted t => .store (VStr t)
        | .hardRuntime => .hard
      else if startsWithC w '%' then
        match formatRaise tmp (String.mk (lstripC w.tail)) false with
        | .ok t => .store (VStr t)
        | .reverted t => .store (VStr t)
        | .hardRuntime => .hard
      else if w = [] then .store (VStr "")
      else if es.2 then
        match formatRaise tmp vs3 true with
        | .ok t => .store (VStr t)
        | .reverted t => .store (VStr t)
        | .hardRuntime => .hard
      else
        match formatNoRaise tmp vs3 false with
        | .ok out =>
            match evaluateS tmp (String.mk out) with
            | .ok val => .store val
            | .error _ => .store (VStr (String.mk (replaceNewlineComma out)))
        | .errKey _ =>
            let resstr := safeFstring tmp priorescape
            (match evaluateS tmp resstr with
             | .ok val => .store val
             | .error _ => .store (VStr resstr))
        | .errIndex =>
            let resstr := safeFstring tmp priorescape
            (match evaluateS tmp resstr with
             | .ok val => .store val
             | .error _ => .store (VStr resstr))
        | .errValue => .store (VStr "ERROR < malformed format string >")
  | VInt n => .store (VInt n)
  | VBool b => .store (VBool b)
  | VList l => .store (VList l)
  | VNone => .skipF
  | VBuiltin _ => .skipF

/-- Field loop of param.eval with the source registry threaded through
explicitly: the loop body only ever assigns into the derived result
registry tmp, never into the source. none models the uncaught
RuntimeError of the raiseerror=True formatting calls. -/
def evalAuxS : Registry → Registry → List (String × Value) →
    Option (Registry × Registry)
  | src, tmp, [] => some (src, tmp)
  | src, tmp, (k, v) :: rest =>
      match evalField tmp v with
      | .hard => none
      | .skipF => evalAuxS src tmp rest
      | .store val => evalAuxS src (setattrS tmp k val) rest

/-- param.eval at the default configuration: fold the fields in order
into a fresh result registry. -/
def paramEval (r : Registry) : Option Registry :=
  match evalAuxS r [] r with
  | some (_, tmp) => some tmp
  | none => none

/- ---------------------------------------------------------------------
Association list lemmas
--------------------------------------------------------------------- -/

theorem keysOf_append (r s : Registry) : keysOf (r ++ s) = keysOf r ++ keysOf s := by
  simp [keysOf]

theorem keysOf_cons (k : String) (v : Value) (r : Registry) :
    keysOf ((k, v) :: r) = k :: keysOf r := rfl

theorem lookupR_append_left {r : Registry} {k : String} (h : k ∈ keysOf r)
    (s : Registry) : lookupR (r ++ s) k = lookupR r k := by
  induction r with
  | nil => simp [keysOf] at h
  | cons p rest ih =>
      rcases p with ⟨k0, v0⟩
      by_cases hk : k0 = k
      · simp [lookupR, hk]
      · simp only [keysOf_cons, List.mem_cons] at h
        rcases h with h | h
        · exact absurd h.symm hk
        · simp [lookupR, hk, ih h]

theorem lookupR_append_right {r : Registry} {k : String} (h : k ∉ keysOf r)
    (s : Registry) : lookupR (r ++ s) k = lookupR s k := by
  induction r with
  | nil => simp
  | cons p rest ih =>
      rcases p with ⟨k0, v0⟩
      simp only [keysOf_cons, List.mem_cons] at h
      push_neg at h
      have hk : ¬ (k0 = k) := fun he => h.1 he.symm
      simp [lookupR, hk, ih h.2]

theorem lookupR_eq_none_of_not_mem {r : Registry} {k : String}
    (h : k ∉ keysOf r) : lookupR r k = none := by
  induction r with
  | nil => rfl
  | cons p rest ih =>
      rcases p with ⟨k0, v0⟩
      simp only [keysOf_cons, List.mem_cons] at h
      push_neg at h
      have hk : ¬ (k0 = k) := fun he => h.1 he.symm
      simp [lookupR, hk, ih h.2]

theorem lookupR_mem_of_nodup {r : Registry} {k : String} {v : Value}
    (hmem : (k, v) ∈ r) (hnd : (keysOf r).Nodup) : lookupR r k = some v := by
  induction r with
  | nil => simp at hmem
  | cons p rest ih =>
      rcases p with ⟨k0, v0⟩
      simp only [keysOf_cons, List.nodup_cons] at hnd
      rcases List.mem_cons.mp hmem with h | h
      · rcases Prod.mk.injEq .. ▸ h with ⟨h1, h2⟩
        simp [lookupR, h1.symm, h2]
      · have hk : k0 ≠ k := by
          intro he
          exact hnd.1 (he ▸ List.mem_map_of_mem Prod.fst h)
        simp [lookupR, hk, ih h hnd.2]

theorem lookupR_some_mem {r : Registry} {k : String} {v : Value}
    (h : lookupR r k = some v) : (k, v) ∈ r := by
  induction r with
  | nil => simp [lookupR] at h
  | cons p rest ih =>
      rcases p with ⟨k0, v0⟩
      by_cases hk : k0 = k
      · subst hk
        simp only [lookupR, if_pos rfl] at h
        injection h with h2
        subst h2
        exact List.mem_cons_self _ _
      · simp only [lookupR, if_neg hk] at h
        exact List.mem_cons_of_mem _ (ih h)

theorem lookupR_eq_of_perm {r s : Registry} (hp : List.Perm r s)
    (hnd : (keysOf r).Nodup) (k : String) : lookupR r k = lookupR s k := by
  have hnd2 : (keysOf s).Nodup := ((hp.map Prod.fst).nodup_iff).mp hnd
  cases hv : lookupR r k with
  | some v =>
      exact (lookupR_mem_of_nodup (hp.mem_iff.mp (lookupR_some_mem hv)) hnd2).symm
  | none =>
      have hk : k ∉ keysOf r := by
        intro hmem
        rcases List.mem_map.mp hmem with ⟨p, hpmem, hpk⟩
        have hp2 : (k, p.2) ∈ r := by
          rw [← hpk]
          simpa using hpmem
        have h2 := lookupR_mem_of_nodup hp2 hnd
        rw [hv] at h2
        exact Option.noConfusion h2
      have : k ∉ keysOf s := fun hmem => hk (((hp.map Prod.fst).mem_iff).mpr hmem)
      exact (lookupR_eq_none_of_not_mem this).symm

theorem setattrS_fresh {r : Registry} {k : String} (v : Value)
    (h : k ∉ keysOf r) : setattrS r k v = r ++ [(k, v)] := by
  simp [setattrS, h]

theorem updateField_fresh {r : Registry} {k : String} (v : Value)
    (h : k ∉ keysOf r) : updateField r k v = r ++ [(k, v)] := by
  simp [updateField, h]

theorem addStruct_single (r : Registry) (k : String) (v : Value) :
    addStruct r [(k, v)] = updateField r k v := rfl

theorem addStruct_single_fresh {r : Registry} {k : String} (v : Value)
    (h : k ∉ keysOf r) : addStruct r [(k, v)] = r ++ [(k, v)] := by
  rw [addStruct_single, updateField_fresh v h]

theorem foldl_setattrS_append :
    ∀ (ps : List (String × Value)) (acc : Registry),
      (∀ p ∈ ps, p.1 ∉ keysOf acc) → (keysOf ps).Nodup →
      ps.foldl (fun a f => setattrS a f.1 f.2) acc = acc ++ ps := by
  intro ps
  induction ps with
  | nil => intro acc _ _; simp
  | cons p rest ih =>
      intro acc hfresh hnd
      rcases p with ⟨k, v⟩
      simp only [keysOf_cons, List.nodup_cons] at hnd
      have hk : k ∉ keysOf acc := hfresh (k, v) (List.mem_cons_self _ _)
      have step : setattrS acc k v = acc ++ [(k, v)] := setattrS_fresh v hk
      simp only [List.foldl_cons, step]
      rw [ih (acc ++ [(k, v)])]
      · simp
      · intro q hq
        rw [keysOf_append]
        simp only [List.mem_append]
        push_neg
        constructor
        · exact hfresh q (List.mem_cons_of_mem _ hq)
        · simp [keysOf]
          intro he
          exact hnd.1 (he ▸ List.mem_map_of_mem Prod.fst hq)
      · exact hnd.2

theorem rebuildR_eq_self {cur : Registry} (hnd : (keysOf cur).Nodup) :
    rebuildR cur = cur := by
  have := foldl_setattrS_append cur [] (by intro p _; simp [keysOf]) hnd
  simpa [rebuildR] using this

/- ---------------------------------------------------------------------
Characterization of fromkeysvalues
--------------------------------------------------------------------- -/

/-- Expected output of the first fromkeysvalues loop. -/
def phase1Spec (vs : List Value) (nv : Nat) : List String → Nat → Registry
  | [], _ => []
  | k :: rest, ik =>
      (k, vs.getD (min ik (nv - 1)) VNone) :: phase1Spec vs nv rest (ik + 1)

/-- The auto-generated names of rem surplus values starting at position
ik. -/
def autoKeys : Nat → Nat → List String
  | _, 0 => []
  | ik, rem + 1 => autoKey ik :: autoKeys (ik + 1) rem

/-- Expected output of the second fromkeysvalues loop. -/
def phase2Spec (vs : List Value) : Nat → Nat → Registry
  | _, 0 => []
  | ik, rem + 1 => (autoKey ik, vs.getD ik VNone) :: phase2Spec vs (ik + 1) rem

theorem keysOf_phase1Spec (vs : List Value) (nv : Nat) :
    ∀ (ks : List String) (ik : Nat), keysOf (phase1Spec vs nv ks ik) = ks := by
  intro ks
  induction ks with
  | nil => intro ik; rfl
  | cons k rest ih => intro ik; simp [phase1Spec, keysOf_cons, ih]

theorem keysOf_phase2Spec (vs : List Value) :
    ∀ (rem ik : Nat), keysOf (phase2Spec vs ik rem) = autoKeys ik rem := by
  intro rem
  induction rem with
  | zero => intro ik; rfl
  | succ n ih => intro ik; simp [phase2Spec, autoKeys, keysOf_cons, ih]

theorem fkvGo1_eq (vs : List Value) (nv : Nat) :
    ∀ (ks : List String) (ik : Nat) (acc : Registry), ks.Nodup →
      (∀ k ∈ ks, k ∉ keysOf acc) →
      fkvGo1 vs nv ik ks acc = acc ++ phase1Spec vs nv ks ik := by
  intro ks
  induction ks with
  | nil => intro ik acc _ _; simp [fkvGo1, phase1Spec]
  | cons k rest ih =>
      intro ik acc hnd hfresh
      simp only [List.nodup_cons] at hnd
      have hk : k ∉ keysOf acc := hfresh k (List.mem_cons_self _ _)
      simp only [fkvGo1, phase1Spec, setattrS_fresh _ hk]
      rw [ih (ik + 1) (acc ++ [(k, vs.getD (min ik (nv - 1)) VNone)]) hnd.2]
      · simp
      · intro q hq
        rw [keysOf_append]
        simp only [List.mem_append]
        push_neg
        refine ⟨hfresh q (List.mem_cons_of_mem _ hq), ?_⟩
        simp [keysOf]
        intro he
        exact hnd.1 (he ▸ hq)

theorem fkvGo2_eq (vs : List Value) :
    ∀ (rem ik : Nat) (acc : Registry), (autoKeys ik rem).Nodup →
      (∀ a ∈ autoKeys ik rem, a ∉ keysOf acc) →
      fkvGo2 vs ik rem acc = acc ++ phase2Spec vs ik rem := by
  intro rem
  induction rem with
  | zero => intro ik acc _ _; simp [fkvGo2, phase2Spec]
  | succ n ih =>
      intro ik acc hnd hfresh
      simp only [autoKeys, List.nodup_cons] at hnd
      have hk : autoKey ik ∉ keysOf acc :=
        hfresh (autoKey ik) (by simp [autoKeys])
      simp only [fkvGo2, phase2Spec, setattrS_fresh _ hk]
      rw [ih (ik + 1) (acc ++ [(autoKey ik, vs.getD ik VNone)]) hnd.2]
      · simp
      · intro q hq
        rw [keysOf_append]
        simp only [List.mem_append]
        push_neg
        refine ⟨hfresh q (by simp [autoKeys, hq]), ?_⟩
        simp [keysOf]
        intro he
        exact hnd.1 (he ▸ hq)

theorem fromkeysvalues_eq (ks : List String) (vs : List Value)
    (hk : ks ≠ []) (hv : vs ≠ [])
    (hnd : (ks ++ autoKeys ks.length (vs.length - ks.length)).Nodup) :
    fromkeysvalues ks vs =
      phase1Spec vs vs.length ks 0 ++
        phase2Spec vs ks.length (vs.length - ks.length) := by
  have hks : 0 < ks.length := List.length_pos.mpr hk
  have hvs : 0 < vs.length := List.length_pos.mpr hv
  have hnd1 : ks.Nodup := hnd.of_append_left
  have hnd2 : (autoKeys ks.length (vs.length - ks.length)).Nodup :=
    hnd.of_append_right
  have hdisj := List.disjoint_of_nodup_append hnd
  rw [fromkeysvalues, if_pos ⟨hks, hvs⟩]
  rw [fkvGo1_eq vs vs.length ks 0 [] hnd1 (by intro k _; simp [keysOf])]
  rw [fkvGo2_eq vs (vs.length - ks.length) ks.length _ hnd2]
  · simp
  · intro a ha
    rw [List.nil_append, keysOf_phase1Spec]
    intro hmem
    exact hdisj hmem ha

theorem mem_autoKeys : ∀ (rem ik i : Nat), ik ≤ i → i < ik + rem →
    autoKey i ∈ autoKeys ik rem := by
  intro rem
  induction rem with
  | zero => intro ik i h1 h2; omega
  | succ n ih =>
      intro ik i h1 h2
      rcases Nat.eq_or_lt_of_le h1 with he | hlt
      · simp [autoKeys, he]
      · exact List.mem_cons_of_mem _ (ih (ik + 1) i hlt (by omega))

theorem lookup_phase2Spec (vs : List Value) :
    ∀ (rem ik i : Nat), ik ≤ i → i < ik + rem → (autoKeys ik rem).Nodup →
      lookupR (phase2Spec vs ik rem) (autoKey i) = some (vs.getD i VNone) := by
  intro rem
  induction rem with
  | zero => intro ik i h1 h2; omega
  | succ n ih =>
      intro ik i h1 h2 hnd
      simp only [autoKeys, List.nodup_cons] at hnd
      rcases Nat.eq_or_lt_of_le h1 with he | hlt
      · subst he
        simp [phase2Spec, lookupR]
      · have hne : ¬ (autoKey ik = autoKey i) := by
          intro he
          exact hnd.1 (he ▸ mem_autoKeys n (ik + 1) i hlt (by omega))
        simp only [phase2Spec, lookupR, if_neg hne]
        exact ih (ik + 1) i hlt (by omega) hnd.2

theorem lookup_phase1Spec (vs : List Value) (nv : Nat) :
    ∀ (ks : List String) (ik i : Nat), i < ks.length → ks.Nodup →
      lookupR (phase1Spec vs nv ks ik) (ks.getD i "") =
        some (vs.getD (min (ik + i) (nv - 1)) VNone) := by
  intro ks
  induction ks with
  | nil => intro ik i h1 _; simp at h1
  | cons k rest ih =>
      intro ik i h1 hnd
      simp only [List.nodup_cons] at hnd
      cases i with
      | zero => simp [phase1Spec, lookupR]
      | succ j =>
          have hj : j < rest.length := by simpa using h1
          have hmem : rest.getD j "" ∈ rest := by
            rw [List.getD_eq_getElem rest "" hj]
            exact List.getElem_mem hj
          have hne : ¬ (k = rest.getD j "") := by
            intro he
            exact hnd.1 (he ▸ hmem)
          have harith : ik + 1 + j = ik + (j + 1) := by omega
          simp only [phase1Spec, List.getD_cons_succ, lookupR, if_neg hne]
          rw [ih (ik + 1) j hj hnd.2, harith]

theorem zip_map_fst_snd_pairs (l : List (String × Value)) :
    (l.map Prod.fst).zip (l.map Prod.snd) = l := by
  induction l with
  | nil => rfl
  | cons p rest ih => simp [ih]

theorem phase1Spec_zip (vs : List Value) :
    ∀ (ks : List String) (ik : Nat), ik + ks.length ≤ vs.length →
      phase1Spec vs vs.length ks ik = ks.zip (vs.drop ik) := by
  intro ks
  induction ks with
  | nil => intro ik _; simp [phase1Spec]
  | cons k rest ih =>
      intro ik hlen
      have hik : ik < vs.length := by simp at hlen; omega
      have hmin : min ik (vs.length - 1) = ik := by omega
      have hdrop := List.drop_eq_getElem_cons hik
      rw [phase1Spec, hmin, hdrop, List.zip_cons_cons,
        List.getD_eq_getElem vs VNone hik,
        ih (ik + 1) (by simp at hlen; omega)]

theorem fromkeysvalues_self {l : Registry} (hnd : (keysOf l).Nodup) :
    fromkeysvalues (l.map Prod.fst) (l.map Prod.snd) = l := by
  cases l with
  | nil => rfl
  | cons p rest =>
      set l := p :: rest with hl
      have hlen : (l.map Prod.fst).length = (l.map Prod.snd).length := by simp
      have hdiff : (l.map Prod.snd).length - (l.map Prod.fst).length = 0 := by
        simp
      rw [fromkeysvalues_eq (l.map Prod.fst) (l.map Prod.snd)
        (by simp [hl]) (by simp [hl]) (by simp [hdiff, autoKeys]; exact hnd)]
      rw [hdiff, phase1Spec_zip (l.map Prod.snd) (l.map Prod.fst) 0 (by simp)]
      simp [zip_map_fst_snd_pairs, phase2Spec]

/- ---------------------------------------------------------------------
sortdefinitions lemmas
--------------------------------------------------------------------- -/

theorem findFirstOKSplit_eq (current : Registry) :
    ∀ (pending pre post : Registry) (q : String × Value),
      findFirstOKSplit current pending = some (pre, q, post) →
      pending = pre ++ q :: post := by
  intro pending
  induction pending with
  | nil => intro pre post q h; simp [findFirstOKSplit] at h
  | cons p rest ih =>
      intro pre post q h
      simp only [findFirstOKSplit] at h
      by_cases hc : alldefined (addStruct current [p]) = true
      · rw [if_pos hc] at h
        simp only [Option.some.injEq, Prod.mk.injEq] at h
        obtain ⟨h1, h2, h3⟩ := h
        subst h1; subst h2; subst h3
        rfl
      · rw [if_neg hc] at h
        cases hfind : findFirstOKSplit current rest with
        | some trip =>
            rcases trip with ⟨pre2, q2, post2⟩
            rw [hfind] at h
            simp only [Option.some.injEq, Prod.mk.injEq] at h
            obtain ⟨h1, h2, h3⟩ := h
            subst h1; subst h2; subst h3
            simp [ih pre2 post2 q2 hfind]
        | none => rw [hfind] at h; exact absurd h (by simp)

theorem findFirstOKSplit_none (current : Registry) :
    ∀ (pending : Registry),
      (∀ q ∈ pending, alldefined (addStruct current [q]) = false) →
      findFirstOKSplit current pending = none := by
  intro pending
  induction pending with
  | nil => intro _; rfl
  | cons p rest ih =>
      intro hall
      have hp := hall p (List.mem_cons_self _ _)
      simp only [findFirstOKSplit, hp]
      rw [ih (fun q hq => hall q (List.mem_cons_of_mem _ hq))]
      simp

theorem sortLoop_done_perm :
    ∀ (fuel : Nat) (pending current : Registry) (re any : Bool)
      (cur2 : Registry) (any2 : Bool),
      pending.length ≤ fuel → (keysOf (current ++ pending)).Nodup →
      sortLoop fuel current pending re any = .done cur2 any2 →
      List.Perm cur2 (current ++ pending) ∧ (keysOf cur2).Nodup := by
  intro fuel
  induction fuel with
  | zero =>
      intro pending current re any cur2 any2 hlen hnd hrun
      have hpend : pending = [] := List.length_eq_zero.mp (Nat.le_zero.mp hlen)
      subst hpend
      simp only [sortLoop] at hrun
      cases hrun
      rw [List.append_nil]
      exact ⟨List.Perm.refl _, by simpa using hnd⟩
  | succ f ih =>
      intro pending current re any cur2 any2 hlen hnd hrun
      cases pending with
      | nil =>
          simp only [sortLoop] at hrun
          cases hrun
          rw [List.append_nil]
          exact ⟨List.Perm.refl _, by simpa using hnd⟩
      | cons p ps =>
          cases hfind : findFirstOKSplit current (p :: ps) with
          | some trip =>
              rcases trip with ⟨pre, q, post⟩
              have hsplit := findFirstOKSplit_eq current (p :: ps) pre post q hfind
              simp only [sortLoop, hfind] at hrun
              have hqmem : q.1 ∈ keysOf (p :: ps) := by
                rw [hsplit, keysOf_append]
                simp [keysOf]
              have hqfresh : q.1 ∉ keysOf current := by
                rw [keysOf_append] at hnd
                exact fun hmem => (List.disjoint_of_nodup_append hnd) hmem hqmem
              have hq2 : addStruct current [q] = current ++ [q] := by
                rcases q with ⟨qk, qv⟩
                exact addStruct_single_fresh qv hqfresh
              rw [hq2] at hrun
              have hpermk :
                  List.Perm ((current ++ [q]) ++ (pre ++ post))
                    (current ++ (p :: ps)) := by
                rw [hsplit, List.append_assoc]
                exact List.Perm.append_left current
                  (by simpa using List.perm_middle.symm)
              have hlen2 : (pre ++ post).length ≤ f := by
                have : (p :: ps).length = (pre ++ post).length + 1 := by
                  rw [hsplit]; simp; omega
                omega
              have hnd2 : (keysOf ((current ++ [q]) ++ (pre ++ post))).Nodup := by
                exact ((hpermk.map Prod.fst).nodup_iff).mpr hnd
              obtain ⟨hperm3, hnd3⟩ :=
                ih (pre ++ post) (current ++ [q]) re true cur2 any2 hlen2 hnd2 hrun
              exact ⟨hperm3.trans hpermk, hnd3⟩
          | none =>
              cases re with
              | true =>
                  simp only [sortLoop, hfind] at hrun
                  exact absurd hrun (by simp)
              | false =>
                  simp only [sortLoop, hfind] at hrun
                  set lst := (p :: ps).getLast (List.cons_ne_nil p ps) with hlst
                  have hsplit : (p :: ps).dropLast ++ [lst] = p :: ps :=
                    List.dropLast_append_getLast (List.cons_ne_nil p ps)
                  have hlmem : lst.1 ∈ keysOf (p :: ps) := by
                    rw [← hsplit, keysOf_append]
                    simp [keysOf]
                  have hlfresh : lst.1 ∉ keysOf current := by
                    rw [keysOf_append] at hnd
                    exact fun hmem =>
                      (List.disjoint_of_nodup_append hnd) hmem hlmem
                  have hl2 : addStruct current [lst] = current ++ [lst] := by
                    rcases hq : lst with ⟨lk, lv⟩
                    rw [hq] at hlfresh
                    exact addStruct_single_fresh lv hlfresh
                  rw [hl2] at hrun
                  have hpermk :
                      List.Perm ((current ++ [lst]) ++ (p :: ps).dropLast)
                        (current ++ (p :: ps)) := by
                    conv_rhs => rw [← hsplit]
                    rw [List.append_assoc]
                    exact List.Perm.append_left current List.perm_append_comm
                  have hlen2 : (p :: ps).dropLast.length ≤ f := by
                    simp at hlen ⊢
                    omega
                  have hnd2 :
                      (keysOf ((current ++ [lst]) ++ (p :: ps).dropLast)).Nodup :=
                    ((hpermk.map Prod.fst).nodup_iff).mpr hnd
                  obtain ⟨hperm3, hnd3⟩ :=
                    ih ((p :: ps).dropLast) (current ++ [lst]) false any cur2 any2
                      hlen2 hnd2 hrun
                  exact ⟨hperm3.trans hpermk, hnd3⟩

theorem sortdefinitions_preserves (r : Registry) (b : Bool)
    (hnd : (keysOf r).Nodup) :
    ∀ res, sortdefinitions r b = SortResult.sorted res →
      List.Perm res r ∧ ∀ k, lookupR res k = lookupR r k := by
  intro res hrun
  have hstatnd : (keysOf (r.filter (fun f => !isexprV f.2))).Nodup :=
    hnd.sublist ((List.filter_sublist r).map Prod.fst)
  have hdynnd : (keysOf (r.filter (fun f => isexprV f.2))).Nodup :=
    hnd.sublist ((List.filter_sublist r).map Prod.fst)
  have hstat := fromkeysvalues_self hstatnd
  have hdyn := fromkeysvalues_self hdynnd
  have hperm0 :
      List.Perm
        (r.filter (fun f => !isexprV f.2) ++ r.filter (fun f => isexprV f.2))
        r := by
    have hp := List.filter_append_perm (fun f : String × Value => !isexprV f.2) r
    have he :
        (fun f : String × Value => !(!isexprV f.2)) =
          fun f : String × Value => isexprV f.2 :=
      funext fun f => Bool.not_not _
    rwa [he] at hp
  have hndsum :
      (keysOf
        (r.filter (fun f => !isexprV f.2) ++
          r.filter (fun f => isexprV f.2))).Nodup :=
    ((hperm0.map Prod.fst).nodup_iff).mpr hnd
  simp only [sortdefinitions, hstat, hdyn] at hrun
  cases hloop :
      sortLoop (r.filter (fun f => isexprV f.2)).length
        (r.filter (fun f => !isexprV f.2))
        (r.filter (fun f => isexprV f.2)) b false with
  | raised n =>
      rw [hloop] at hrun
      exact absurd hrun (by simp)
  | done cur any =>
      rw [hloop] at hrun
      simp only [SortResult.sorted.injEq] at hrun
      obtain ⟨hperm1, hnd1⟩ :=
        sortLoop_done_perm (r.filter (fun f => isexprV f.2)).length
          (r.filter (fun f => isexprV f.2))
          (r.filter (fun f => !isexprV f.2)) b false cur any
          (Nat.le_refl _) hndsum hloop
      cases any with
      | true =>
          rw [rebuildR_eq_self hnd1] at hrun
          subst hrun
          have hperm : List.Perm cur r := hperm1.trans hperm0
          exact ⟨hperm, fun k => lookupR_eq_of_perm hperm hnd1 k⟩
      | false =>
          subst hrun
          exact ⟨List.Perm.refl r, fun _ => rfl⟩

/- ---------------------------------------------------------------------
param.eval loop lemmas
--------------------------------------------------------------------- -/

theorem evalAuxS_src :
    ∀ (fs : List (String × Value)) (src tmp src2 res : Registry),
      evalAuxS src tmp fs = some (src2, res) → src2 = src := by
  intro fs
  induction fs with
  | nil =>
      intro src tmp src2 res h
      simp only [evalAuxS, Option.some.injEq, Prod.mk.injEq] at h
      exact h.1.symm
  | cons f rest ih =>
      intro src tmp src2 res h
      rcases f with ⟨k, v⟩
      simp only [evalAuxS] at h
      cases hact : evalField tmp v with
      | hard => simp [hact] at h
      | skipF => simp only [hact] at h; exact ih src tmp src2 res h
      | store val => simp only [hact] at h; exact ih src _ src2 res h

theorem evalAuxS_frame :
    ∀ (fs : List (String × Value)) (src tmp src2 res : Registry),
      (∀ f ∈ fs, f.1 ∉ keysOf tmp) → (keysOf fs).Nodup →
      evalAuxS src tmp fs = some (src2, res) →
      ∀ k ∈ keysOf tmp, lookupR res k = lookupR tmp k := by
  intro fs
  induction fs with
  | nil =>
      intro src tmp src2 res _ _ h k _
      simp only [evalAuxS, Option.some.injEq, Prod.mk.injEq] at h
      rw [h.2]
  | cons f rest ih =>
      intro src tmp src2 res hfresh hnd h k hk
      rcases f with ⟨k0, v0⟩
      simp only [keysOf_cons, List.nodup_cons] at hnd
      simp only [evalAuxS] at h
      cases hact : evalField tmp v0 with
      | hard => simp [hact] at h
      | skipF =>
          simp only [hact] at h
          exact ih src tmp src2 res
            (fun f hf => hfresh f (List.mem_cons_of_mem _ hf)) hnd.2 h k hk
      | store val =>
          simp only [hact] at h
          have hk0 : k0 ∉ keysOf tmp := hfresh (k0, v0) (List.mem_cons_self _ _)
          rw [setattrS_fresh val hk0] at h
          have hfresh2 : ∀ f ∈ rest, f.1 ∉ keysOf (tmp ++ [(k0, val)]) := by
            intro f hf
            rw [keysOf_append]
            simp only [List.mem_append]
            push_neg
            refine ⟨hfresh f (List.mem_cons_of_mem _ hf), ?_⟩
            simp [keysOf]
            intro he
            exact hnd.1 (he ▸ List.mem_map_of_mem Prod.fst hf)
          have := ih src (tmp ++ [(k0, val)]) src2 res hfresh2 hnd.2 h k
            (by rw [keysOf_append]; exact List.mem_append_left _ hk)
          rw [this, lookupR_append_left hk]

theorem evalAuxS_store_result :
    ∀ (fs : List (String × Value)) (src tmp src2 res : Registry)
      (k : String) (v u : Value),
      (k, v) ∈ fs → (∀ t, evalField t v = FieldOutcome.store u) →
      (∀ f ∈ fs, f.1 ∉ keysOf tmp) → (keysOf fs).Nodup →
      evalAuxS src tmp fs = some (src2, res) →
      lookupR res k = some u := by
  intro fs
  induction fs with
  | nil => intro src tmp src2 res k v u hmem _ _ _ _; simp at hmem
  | cons f rest ih =>
      intro src tmp src2 res k v u hmem hstore hfresh hnd h
      rcases f with ⟨k0, v0⟩
      simp only [keysOf_cons, List.nodup_cons] at hnd
      simp only [evalAuxS] at h
      rcases List.mem_cons.mp hmem with hhead | htail
      · obtain ⟨hk, hv⟩ := Prod.mk.injEq .. ▸ hhead
        subst hk; subst hv
        simp only [hstore tmp] at h
        have hk0 : k ∉ keysOf tmp := hfresh (k, v) (List.mem_cons_self _ _)
        rw [setattrS_fresh u hk0] at h
        have hfresh2 : ∀ f ∈ rest, f.1 ∉ keysOf (tmp ++ [(k, u)]) := by
          intro f hf
          rw [keysOf_append]
          simp only [List.mem_append]
          push_neg
          refine ⟨hfresh f (List.mem_cons_of_mem _ hf), ?_⟩
          simp [keysOf]
          intro he
          exact hnd.1 (he ▸ List.mem_map_of_mem Prod.fst hf)
        have hkmem : k ∈ keysOf (tmp ++ [(k, u)]) := by
          rw [keysOf_append]
          exact List.mem_append_right _ (by simp [keysOf])
        have hlook := evalAuxS_frame rest src (tmp ++ [(k, u)]) src2 res
          hfresh2 hnd.2 h k hkmem
        rw [hlook, lookupR_append_right hk0]
        simp [lookupR]
      · cases hact : evalField tmp v0 with
        | hard => simp [hact] at h
        | skipF =>
            simp only [hact] at h
            exact ih src tmp src2 res k v u htail hstore
              (fun f hf => hfresh f (List.mem_cons_of_mem _ hf)) hnd.2 h
        | store val =>
            simp only [hact] at h
            have hk0 : k0 ∉ keysOf tmp := hfresh (k0, v0) (List.mem_cons_self _ _)
            rw [setattrS_fresh val hk0] at h
            have hfresh2 : ∀ f ∈ rest, f.1 ∉ keysOf (tmp ++ [(k0, val)]) := by
              intro f hf
              rw [keysOf_append]
              simp only [List.mem_append]
              push_neg
              refine ⟨hfresh f (List.mem_cons_of_mem _ hf), ?_⟩
              simp [keysOf]
              intro he
              exact hnd.1 (he ▸ List.mem_map_of_mem Prod.fst hf)
            exact ih src (tmp ++ [(k0, val)]) src2 res k v u htail hstore
              hfresh2 hnd.2 h

/- ---------------------------------------------------------------------
Claim theorems
--------------------------------------------------------------------- -/

/-- Claim C1: for the registry a=1, c="${a}+${b}", b=2, sortdefinitions
reorders the fields to the evaluation order a, b, c, and param.eval on
the sorted registry resolves field c to the number 3. -/
theorem claim_C1 :
    sortdefinitions [("a", VInt 1), ("c", VStr "${a}+${b}"), ("b", VInt 2)] true =
      SortResult.sorted [("a", VInt 1), ("b", VInt 2), ("c", VStr "${a}+${b}")] ∧
    paramEval [("a", VInt 1), ("b", VInt 2), ("c", VStr "${a}+${b}")] =
      some [("a", VInt 1), ("b", VInt 2), ("c", VInt 3)] :=
  ⟨rfl, rfl⟩

/-- Claim C2 counterexample: param.eval can raise because of a per-field
failure.  The field text dollar-a-brace enters the dollar-sigil branch,
whose struct.format call runs with raiseerror=True; the single brace is a
ValueError of format_map, which that call re-raises as RuntimeError
(modelled as none), aborting the whole evaluation. -/
theorem claim_C2_counterexample : paramEval [("x", VStr "$a\x7b")] = none := rfl

/-- Syntactic condition under which a field can never reach the
raiseerror=True formatting calls of param.eval: no escaped placeholder
and no dollar or percent sigil after preprocessing. -/
def fieldNoSigil : Value → Bool
  | VStr s =>
      let w := commentStripL (replaceCaret (escapeS s).1.data)
      !(escapeS s).2 && !startsWithC w '$' && !startsWithC w '%'
  | _ => true

theorem evalField_no_hard (v : Value) (h : fieldNoSigil v = true)
    (t : Registry) : evalField t v ≠ FieldOutcome.hard := by
  cases v with
  | VStr s =>
      simp only [fieldNoSigil, Bool.and_eq_true, Bool.not_eq_true'] at h
      obtain ⟨⟨h1, h2⟩, h3⟩ := h
      simp only [evalField, h1, h2, h3, Bool.false_eq_true, false_and,
        and_false, if_false]
      split
      · split <;> simp
      · split
        · simp
        · split
          · split <;> simp
          · split <;> simp
          · split <;> simp
          · simp
  | VInt n => simp [evalField]
  | VBool b => simp [evalField]
  | VList l => simp [evalField]
  | VNone => simp [evalField]
  | VBuiltin n => simp [evalField]

theorem evalAuxS_total :
    ∀ (fs : List (String × Value)) (src tmp : Registry),
      (∀ f ∈ fs, fieldNoSigil f.2 = true) →
      evalAuxS src tmp fs ≠ none := by
  intro fs
  induction fs with
  | nil => intro src tmp _; simp [evalAuxS]
  | cons f rest ih =>
      intro src tmp hsafe
      rcases f with ⟨k, v⟩
      simp only [evalAuxS]
      cases hact : evalField tmp v with
      | hard =>
          exact absurd hact
            (evalField_no_hard v (hsafe (k, v) (List.mem_cons_self _ _)) tmp)
      | skipF =>
          exact ih src tmp (fun f hf => hsafe f (List.mem_cons_of_mem _ hf))
      | store val =>
          exact ih src _ (fun f hf => hsafe f (List.mem_cons_of_mem _ hf))

/-- Claim C2 amended: with the default configuration, a per-field
evaluation error is caught and stored as a sentinel, and param.eval
cannot raise, PROVIDED no text field carries an escaped placeholder or a
dollar/percent sigil after preprocessing; fields in those three branches
format with raiseerror=True, where any failure other than a missing name
propagates as an uncaught RuntimeError that aborts the evaluation. -/
theorem claim_C2_amended (r : Registry)
    (hsafe : ∀ f ∈ r, fieldNoSigil f.2 = true) :
    paramEval r ≠ none := by
  unfold paramEval
  cases haux : evalAuxS r [] r with
  | none => exact absurd haux (evalAuxS_total r r [] hsafe)
  | some pr => simp

/-- Claim C2 amended, witness at a registry with a literal and a
dependent expression field. -/
theorem claim_C2_amended_witness :
    (∀ f ∈ [("a", VInt 1), ("b", VStr "${a}+1")], fieldNoSigil f.2 = true) ∧
    paramEval [("a", VInt 1), ("b", VStr "${a}+1")] ≠ none :=
  ⟨by decide, claim_C2_amended [("a", VInt 1), ("b", VStr "${a}+1")] (by decide)⟩

/-- Claim C3 counterexample: in lenient mode, when no pending field
tests defined, the source force-accepts the field tested LAST, not the
first.  With pending fields x then y (both unresolvable), the sorted
order ends y before x, while force-accepting the first pending field
would end x before y. -/
theorem claim_C3_counterexample :
    sortdefinitions
      [("a", VInt 1), ("c", VStr "${a}"), ("x", VStr "${u}"), ("y", VStr "${w}")]
      false =
      SortResult.sorted
        [("a", VInt 1), ("c", VStr "${a}"), ("y", VStr "${w}"), ("x", VStr "${u}")] ∧
    keysOf
      [("a", VInt 1), ("c", VStr "${a}"), ("y", VStr "${w}"), ("x", VStr "${u}")] ≠
      ["a", "c", "x", "y"] :=
  ⟨rfl, by decide⟩

/-- Claim C3 amended: when the pending set is non-empty and no pending
field passes the defined test against the accumulator, strict mode
raises with the count of remaining fields before evaluating anything
(the sorter never evaluates), and lenient mode force-accepts the LAST
pending field (the one tested last), emits a diagnostic, and continues
with the remaining fields. -/
theorem claim_C3_amended (f : Nat) (current : Registry) (p : String × Value)
    (ps : Registry) (any : Bool)
    (hnone : ∀ q ∈ (p :: ps), alldefined (addStruct current [q]) = false) :
    sortLoop (f + 1) current (p :: ps) true any = SortRes.raised (p :: ps).length ∧
    sortLoop (f + 1) current (p :: ps) false any =
      sortLoop f (addStruct current [(p :: ps).getLast (List.cons_ne_nil p ps)])
        (p :: ps).dropLast false any := by
  have hfind := findFirstOKSplit_none current (p :: ps) hnone
  constructor
  · simp [sortLoop, hfind]
  · simp [sortLoop, hfind]

/-- Claim C3 amended, witness at an accumulator holding a and two
unresolvable pending fields. -/
theorem claim_C3_amended_witness :
    (∀ q ∈ [("x", VStr "${u}"), ("y", VStr "${w}")],
      alldefined (addStruct [("a", VInt 1)] [q]) = false) ∧
    sortLoop 2 [("a", VInt 1)] [("x", VStr "${u}"), ("y", VStr "${w}")] true false =
      SortRes.raised 2 ∧
    sortLoop 2 [("a", VInt 1)] [("x", VStr "${u}"), ("y", VStr "${w}")] false false =
      sortLoop 1
        (addStruct [("a", VInt 1)]
          [([("x", VStr "${u}"), ("y", VStr "${w}")].getLast (by simp))])
        ([("x", VStr "${u}"), ("y", VStr "${w}")].dropLast) false false :=
  ⟨by decide,
   (claim_C3_amended 1 [("a", VInt 1)] ("x", VStr "${u}") [("y", VStr "${w}")]
     false (by decide)).1,
   (claim_C3_amended 1 [("a", VInt 1)] ("x", VStr "${u}") [("y", VStr "${w}")]
     false (by decide)).2⟩

/-- Claim C4 counterexample: a text field with no placeholder is not
copied through unchanged: the default branch hands it to SafeEvaluator,
so the text 1+1 resolves to the number 2, not to the raw text. -/
theorem claim_C4_counterexample :
    isstrexpression "1+1" = false ∧
    paramEval [("x", VStr "1+1")] = some [("x", VInt 2)] ∧
    VInt 2 ≠ VStr "1+1" :=
  ⟨rfl, rfl, fun h => Value.noConfusion h⟩

/-- Values the numeric-copy branch of param.eval stores unchanged. -/
def isNonTextStored : Value → Bool
  | VInt _ => true
  | VBool _ => true
  | VList _ => true
  | _ => false

/-- Claim C4 amended: resolution is the identity on every NON-TEXT field
value (numbers, booleans, sequences are copied through unchanged).  Text
values may be rewritten even without a placeholder (comment stripping,
caret rewrite, sigil dispatch, implicit evaluation), and None values are
dropped. -/
theorem claim_C4_amended (r res : Registry) (hnd : (keysOf r).Nodup)
    (k : String) (v : Value) (hmem : (k, v) ∈ r)
    (hv : isNonTextStored v = true) (hrun : paramEval r = some res) :
    lookupR res k = some v := by
  have hstore : ∀ t, evalField t v = FieldOutcome.store v := by
    intro t
    cases v with
    | VInt n => rfl
    | VBool b => rfl
    | VList l => rfl
    | VStr s => simp [isNonTextStored] at hv
    | VNone => simp [isNonTextStored] at hv
    | VBuiltin n => simp [isNonTextStored] at hv
  unfold paramEval at hrun
  cases haux : evalAuxS r [] r with
  | none => rw [haux] at hrun; exact absurd hrun (by simp)
  | some pr =>
      rcases pr with ⟨src2, tmp⟩
      rw [haux] at hrun
      simp only [Option.some.injEq] at hrun
      subst hrun
      exact evalAuxS_store_result r r [] src2 _ k v v hmem hstore
        (by intro f _; simp [keysOf]) hnd haux

/-- Claim C4 amended, witness at a one-field numeric registry. -/
theorem claim_C4_amended_witness :
    (keysOf [("n", VInt 5)]).Nodup ∧
    lookupR [("n", VInt 5)] "n" = some (VInt 5) :=
  ⟨by decide,
   claim_C4_amended [("n", VInt 5)] [("n", VInt 5)] (by decide) "n" (VInt 5)
     (List.mem_cons_self _ _) rfl rfl⟩

/-- Claim C5 counterexample: SafeEvaluator.visit_Attribute accepts any
attribute the object possesses, not only transpose: the attribute real
on the integer 1 is read successfully instead of failing with
AttributeNotAllowed. -/
theorem claim_C5_counterexample :
    evaluateS [] "(1).real" = Except.ok (VInt 1) ∧
    "real" ≠ "T" ∧ "real" ≠ "transpose" :=
  ⟨rfl, by decide, by decide⟩

/-- Claim C5 amended: attribute access in SafeEvaluator succeeds for
EVERY attribute the value possesses (returning it through getattr, with
the transpose special case applying only to NumPy arrays) and fails only
when the attribute is absent; no attribute allow-list is enforced. -/
theorem claim_C5_amended (tmp : Registry) (c : Value) (a : String) :
    visitE tmp (Expr.attrE (Expr.konst c) a) =
      (if pyHasattr c a then Except.ok (pyGetattr c a)
       else Except.error EvalErr.attrNoAttr) := rfl

theorem evalField_escaped (t : Registry) :
    evalField t (VStr "\\${x}") = FieldOutcome.store (VStr "${x}") := rfl

/-- Claim C6: a field whose raw text is backslash-dollar-brace-x-brace
resolves to the literal text dollar-brace-x-brace in every registry,
with no substitution performed, whether or not a field named x exists:
the escape pass rewrites the span to a double-braced form that
format_map turns back into a literal placeholder without any lookup. -/
theorem claim_C6 (r res : Registry) (hnd : (keysOf r).Nodup) (k : String)
    (hmem : (k, VStr "\\${x}") ∈ r) (hrun : paramEval r = some res) :
    lookupR res k = some (VStr "${x}") := by
  unfold paramEval at hrun
  cases haux : evalAuxS r [] r with
  | none => rw [haux] at hrun; exact absurd hrun (by simp)
  | some pr =>
      rcases pr with ⟨src2, tmp⟩
      rw [haux] at hrun
      simp only [Option.some.injEq] at hrun
      subst hrun
      exact evalAuxS_store_result r r [] src2 _ k (VStr "\\${x}") (VStr "${x}")
        hmem (fun t => evalField_escaped t) (by intro f _; simp [keysOf]) hnd haux

/-- Claim C6, witness at a one-field registry where no field named x
exists. -/
theorem claim_C6_witness :
    (keysOf [("p", VStr "\\${x}")]).Nodup ∧
    lookupR [("p", VStr "${x}")] "p" = some (VStr "${x}") :=
  ⟨by decide,
   claim_C6 [("p", VStr "\\${x}")] [("p", VStr "${x}")] (by decide) "p"
     (List.mem_cons_self _ _) rfl⟩

/-- Claim C7: the evaluation loop threads the source registry through
unchanged (the body only assigns into the derived result registry), and
the accumulating result context is only ever appended to: every binding
already placed for an earlier field keeps its exact value while later
fields are evaluated. -/
theorem claim_C7 (fs : List (String × Value)) (src tmp src2 res : Registry)
    (hfresh : ∀ f ∈ fs, f.1 ∉ keysOf tmp) (hnd : (keysOf fs).Nodup)
    (hrun : evalAuxS src tmp fs = some (src2, res)) :
    src2 = src ∧ ∀ k ∈ keysOf tmp, lookupR res k = lookupR tmp k :=
  ⟨evalAuxS_src fs src tmp src2 res hrun,
   evalAuxS_frame fs src tmp src2 res hfresh hnd hrun⟩

/-- Claim C7, witness: evaluating a dependent field neither touches the
source nor the binding already in the context. -/
theorem claim_C7_witness :
    [("z", VInt 0)] = [("z", VInt 0)] ∧
    ∀ k ∈ keysOf [("a", VInt 1)],
      lookupR [("a", VInt 1), ("b", VInt 2)] k = lookupR [("a", VInt 1)] k :=
  claim_C7 [("b", VStr "${a}+1")] [("z", VInt 0)] [("a", VInt 1)]
    [("z", VInt 0)] [("a", VInt 1), ("b", VInt 2)]
    (by decide) (by decide) rfl

/-- Claim C8 counterexample: with one name and two values, the surplus
value is stored under key1 (its position in the value sequence), not
under key0 as the claim states. -/
theorem claim_C8_counterexample :
    fromkeysvalues ["a"] [VInt 10, VInt 20] = [("a", VInt 10), ("key1", VInt 20)] ∧
    lookupR (fromkeysvalues ["a"] [VInt 10, VInt 20]) "key0" = none :=
  ⟨rfl, rfl⟩

/-- Claim C8 amended: with n names and m values (both positive, names
and auto-generated names all distinct): if m exceeds n, the surplus value
at position i is stored under keyI (the name indexed by the value
position, starting at keyN); if n exceeds m, every surplus name is
assigned the last value of the value sequence. -/
theorem claim_C8_amended (ks : List String) (vs : List Value)
    (hk : ks ≠ []) (hv : vs ≠ [])
    (hnd : (ks ++ autoKeys ks.length (vs.length - ks.length)).Nodup) :
    (∀ i, ks.length ≤ i → i < vs.length →
      lookupR (fromkeysvalues ks vs) (autoKey i) = some (vs.getD i VNone)) ∧
    (∀ i, vs.length ≤ i → i < ks.length →
      lookupR (fromkeysvalues ks vs) (ks.getD i "") = some (vs.getLast hv)) := by
  have hchar := fromkeysvalues_eq ks vs hk hv hnd
  have hnd1 : ks.Nodup := hnd.of_append_left
  have hnd2 := hnd.of_append_right
  have hdisj := List.disjoint_of_nodup_append hnd
  constructor
  · intro i h1 h2
    rw [hchar]
    have hks : autoKey i ∉ keysOf (phase1Spec vs vs.length ks 0) := by
      rw [keysOf_phase1Spec]
      intro hmem
      exact hdisj hmem (mem_autoKeys _ ks.length i h1 (by omega))
    rw [lookupR_append_right hks]
    exact lookup_phase2Spec vs (vs.length - ks.length) ks.length i h1
      (by omega) hnd2
  · intro i h1 h2
    rw [hchar]
    have hkmem : ks.getD i "" ∈ keysOf (phase1Spec vs vs.length ks 0) := by
      rw [keysOf_phase1Spec, List.getD_eq_getElem ks "" h2]
      exact List.getElem_mem h2
    rw [lookupR_append_left hkmem,
      lookup_phase1Spec vs vs.length ks 0 i h2 hnd1]
    have hvlen : 0 < vs.length := List.length_pos.mpr hv
    have hmin : min (0 + i) (vs.length - 1) = vs.length - 1 := by omega
    rw [hmin]
    congr 1
    rw [List.getD_eq_getElem vs VNone (by omega), List.getLast_eq_getElem vs hv]

/-- Claim C8 amended, witness: one name with two values puts the surplus
value under key1; two names with one value assign the second name the
last value. -/
theorem claim_C8_amended_witness :
    lookupR (fromkeysvalues ["a"] [VInt 10, VInt 20]) (autoKey 1) =
      some ([VInt 10, VInt 20].getD 1 VNone) ∧
    lookupR (fromkeysvalues ["a", "b"] [VInt 7]) (["a", "b"].getD 1 "") =
      some (VInt 7) :=
  ⟨(claim_C8_amended ["a"] [VInt 10, VInt 20] (by decide) (by simp)
      (by decide)).1 1 (by decide) (by decide),
   (claim_C8_amended ["a", "b"] [VInt 7] (by decide) (by simp)
      (by decide)).2 1 (by decide) (by decide)⟩

/-- Claim C9: whenever sortdefinitions returns (either mode), the
result holds exactly the same field names bound to exactly the same raw
values; only the order of the fields changes. -/
theorem claim_C9 (r : Registry) (b : Bool) (hnd : (keysOf r).Nodup)
    (res : Registry) (hrun : sortdefinitions r b = SortResult.sorted res) :
    List.Perm (keysOf res) (keysOf r) ∧ ∀ k, lookupR res k = lookupR r k := by
  obtain ⟨hperm, hlook⟩ := sortdefinitions_preserves r b hnd res hrun
  exact ⟨hperm.map Prod.fst, hlook⟩

/-- Claim C9, witness at a two-field registry that sortdefinitions
rewrites. -/
theorem claim_C9_witness :
    List.Perm (keysOf [("a", VInt 1), ("c", VStr "${a}")])
      (keysOf [("c", VStr "${a}"), ("a", VInt 1)]) ∧
    ∀ k, lookupR [("a", VInt 1), ("c", VStr "${a}")] k =
      lookupR [("c", VStr "${a}"), ("a", VInt 1)] k :=
  claim_C9 [("c", VStr "${a}"), ("a", VInt 1)] true (by decide)
    [("a", VInt 1), ("c", VStr "${a}")] rfl

theorem lookupR_getD_key :
    ∀ (r : Registry), (keysOf r).Nodup → ∀ j, j < r.length →
      lookupR r ((keysOf r).getD j "") = some ((r.getD j ("", VNone)).2) := by
  intro r
  induction r with
  | nil => intro _ j hj; simp at hj
  | cons p rest ih =>
      intro hnd j hj
      rcases p with ⟨k0, v0⟩
      simp only [keysOf_cons, List.nodup_cons] at hnd
      cases j with
      | zero =>
          rw [keysOf_cons]
          simp [lookupR]
      | succ j2 =>
          have hj2 : j2 < rest.length := by simpa using hj
          have hkmem : (keysOf rest).getD j2 "" ∈ keysOf rest := by
            rw [List.getD_eq_getElem (keysOf rest) ""
              (by simpa [keysOf] using hj2)]
            exact List.getElem_mem (by simpa [keysOf] using hj2)
          have hne : ¬ (k0 = (keysOf rest).getD j2 "") := by
            intro he
            exact hnd.1 (he ▸ hkmem)
          simp only [keysOf_cons, List.getD_cons_succ, List.getD_cons_succ,
            lookupR, if_neg hne]
          exact ih hnd.2 j2 hj2

/-- Claim C10: integer indexing follows Python negative-index semantics:
for -n up to n-1 the field value at the (possibly wrapped) position is
returned, although the error message documents the range 0 to n-1; any
index at or beyond n, or below -n, is an IndexError (none). -/
theorem claim_C10 (r : Registry) (hnd : (keysOf r).Nodup) (i : Int) :
    ((-(r.length : Int) ≤ i ∧ i < (r.length : Int)) →
      getitemInt r i =
        some ((r.getD (if 0 ≤ i then i.toNat else ((r.length : Int) + i).toNat)
          ("", VNone)).2)) ∧
    (((r.length : Int) ≤ i ∨ i < -(r.length : Int)) → getitemInt r i = none) := by
  have hklen : (keysOf r).length = r.length := by simp [keysOf]
  constructor
  · rintro ⟨hlo, hhi⟩
    unfold getitemInt pyListGet
    rw [if_pos hhi]
    by_cases h0 : 0 ≤ i
    · have hc : 0 ≤ i ∧ i < ((keysOf r).length : Int) := by
        rw [hklen]; exact ⟨h0, hhi⟩
      rw [dif_pos hc, if_pos h0]
      have hj : i.toNat < r.length := by omega
      have hkey : (keysOf r).get ⟨i.toNat, by omega⟩ =
          (keysOf r).getD i.toNat "" := by
        rw [List.getD_eq_getElem (keysOf r) "" (by omega)]
        simp
      show lookupR r ((keysOf r).get ⟨i.toNat, by omega⟩) = _
      rw [hkey]
      exact lookupR_getD_key r hnd i.toNat hj
    · have hc1 : ¬ (0 ≤ i ∧ i < ((keysOf r).length : Int)) := by
        intro hcc; exact h0 hcc.1
      have hc2 : -((keysOf r).length : Int) ≤ i ∧ i < 0 := by
        rw [hklen]; omega
      rw [dif_neg hc1, dif_pos hc2, if_neg h0]
      have hj : (((keysOf r).length : Int) + i).toNat < r.length := by
        rw [hklen]; omega
      have hkey : (keysOf r).get ⟨(((keysOf r).length : Int) + i).toNat, by omega⟩ =
          (keysOf r).getD (((keysOf r).length : Int) + i).toNat "" := by
        rw [List.getD_eq_getElem (keysOf r) "" (by omega)]
        simp
      show lookupR r _ = _
      rw [hkey]
      have harg : (((keysOf r).length : Int) + i).toNat =
          (((r.length : Int)) + i).toNat := by rw [hklen]
      rw [harg]
      exact lookupR_getD_key r hnd _ (by omega)
  · intro h
    unfold getitemInt pyListGet
    rcases h with h | h
    · rw [if_neg (by omega)]
    · rw [if_pos (by omega)]
      have hc1 : ¬ (0 ≤ i ∧ i < ((keysOf r).length : Int)) := by
        rw [hklen]; omega
      have hc2 : ¬ (-((keysOf r).length : Int) ≤ i ∧ i < 0) := by
        rw [hklen]; omega
      rw [dif_neg hc1, dif_neg hc2]

/-- Claim C10, witness: index -1 of a two-field registry returns the
last field value; index 2 and index -3 are IndexError. -/
theorem claim_C10_witness :
    getitemInt [("a", VInt 1), ("b", VInt 2)] (-1) = some (VInt 2) ∧
    getitemInt [("a", VInt 1), ("b", VInt 2)] 2 = none ∧
    getitemInt [("a", VInt 1), ("b", VInt 2)] (-3) = none :=
  ⟨(claim_C10 [("a", VInt 1), ("b", VInt 2)] (by decide) (-1)).1
      (by constructor <;> decide),
   (claim_C10 [("a", VInt 1), ("b", VInt 2)] (by decide) 2).2 (by left; decide),
   (claim_C10 [("a", VInt 1), ("b", VInt 2)] (by decide) (-3)).2
      (by right; decide)⟩


